import Mathlib

/-!
Shallow embedding of the extraction core of the `procyclingstats` scraper:
URL normalization (`Scraper._make_absolute_url`, `RequestWrapper._format_url`,
`Scraper.relative_url`), document fetching (`Scraper.update_html`), the
reflective field dispatcher (`Scraper.parse`, `Scraper._get_parsing_methods`)
and the team-history table pipeline tail (`Rider.teams_history`).
-/

namespace PCS

/-- Python exception kinds raised by the embedded code. -/
inductive PyExc where
  | expectedParsingError
  | parsedValueInvalidError
  | attributeError
  | indexError
  | valueError (msg : String)
deriving DecidableEq, Repr

/-- A fetched, parsed page.  `heading` is the text of
`css_first(".page-title > .main > h1")` (`none` when the selector has no
match); `body` stands for the rest of the parsed tree; `statusCode` is the
HTTP status of the response, which the code never reads. -/
structure Page where
  heading : Option String
  body : String
  statusCode : Nat
deriving DecidableEq, Repr

/-- The mutable state of a `Scraper` object: its URL and the cached
parsed document (`self._html`, `None` while unfetched). -/
structure ScraperState where
  url : String
  html : Option Page
deriving DecidableEq, Repr

/-- `Scraper.BASE_URL`. -/
def BASE_URL : String := "https://www.procyclingstats.com/"

/-- The `Scraper.html` property: raises `ExpectedParsingError` when
`self._html is None`, else returns the cached document. -/
def htmlAccess (s : ScraperState) : Except PyExc Page :=
  match s.html with
  | none => .error .expectedParsingError
  | some d => .ok d

/-- `Scraper.update_html`: fetches `self._url`, parses it, raises
`ValueError(f"Invalid URL: {url}")` when the page heading reads
"Page not found" (an `AttributeError` when the heading element is missing),
and only otherwise assigns the new document to `self._html`.  Returns the
post-call object state together with the raised exception, if any. -/
def update_html (fetch : String → Page) (s : ScraperState) :
    ScraperState × Option PyExc :=
  let html := fetch s.url
  match html.heading with
  | none => (s, some .attributeError)
  | some t =>
    if t = "Page not found" then
      (s, some (.valueError ("Invalid URL: " ++ s.url)))
    else
      ({ s with html := some html }, none)

/-- `startsWithChars n h`: the char list `h` begins with `n`. -/
def startsWithChars : List Char → List Char → Bool
  | [], _ => true
  | _ :: _, [] => false
  | a :: as, b :: bs => a = b && startsWithChars as bs

/-- `strContains n h`: the char list `n` occurs contiguously inside `h`
(Python's `n in h` on strings). -/
def strContains (needle : List Char) : List Char → Bool
  | [] => needle.isEmpty
  | c :: t => startsWithChars needle (c :: t) || strContains needle t

/-- Python's `"https" in url`. -/
def containsHttps (url : String) : Bool :=
  strContains "https".data url.data

/-- `Scraper._make_absolute_url`: if `"https" not in url`, prepend
`BASE_URL`, dropping one leading `/` from the input when present.
Python's `url[0]` raises `IndexError` on the empty string. -/
def make_absolute_url (url : String) : Except PyExc String :=
  if containsHttps url then .ok url
  else
    match url.data with
    | [] => .error .indexError
    | c :: rest =>
      if c = '/' then .ok (BASE_URL ++ String.mk rest)
      else .ok (BASE_URL ++ url)

/-- `RequestWrapper._format_url` (the older implementation): if
`"https" not in url`, prepend the base URL, dropping one trailing `/`
from the input when present.  Python's `url[-1]` raises `IndexError`
on the empty string. -/
def format_url (url : String) : Except PyExc String :=
  if containsHttps url then .ok url
  else
    match url.data.getLast? with
    | none => .error .indexError
    | some c =>
      if c = '/' then .ok (BASE_URL ++ String.mk url.data.dropLast)
      else .ok (BASE_URL ++ url)

/-- Python's `str.split("/")` on a list of characters. -/
def splitOnSlash : List Char → List (List Char)
  | [] => [[]]
  | c :: cs =>
    if c = '/' then [] :: splitOnSlash cs
    else
      match splitOnSlash cs with
      | [] => [[c]]
      | h :: t => (c :: h) :: t

/-- Python's `"/".join` on a list of character lists. -/
def joinSlash : List (List Char) → List Char
  | [] => []
  | [x] => x
  | x :: y :: t => x ++ '/' :: joinSlash (y :: t)

/-- `Scraper.relative_url`: `"/".join(self._url.split("/")[3:])`. -/
def relative_url (u : String) : String :=
  String.mk (joinSlash ((splitOnSlash u.data).drop 3))

/-- Modelled from the spec: `canonical(p)`, the canonical path-only
identifier of a relative path — the input with its leading path
separator removed. -/
def canonicalRelative (p : String) : String :=
  match p.data with
  | [] => p
  | c :: rest => if c = '/' then String.mk rest else p

instance {ε : Type} {α : Type} [DecidableEq ε] [DecidableEq α] :
    DecidableEq (Except ε α) := fun x y =>
  match x, y with
  | .error a, .error b =>
    if h : a = b then isTrue (congrArg Except.error h)
    else isFalse (fun he => h (Except.error.inj he))
  | .ok a, .ok b =>
    if h : a = b then isTrue (congrArg Except.ok h)
    else isFalse (fun he => h (Except.ok.inj he))
  | .error _, .ok _ => isFalse (fun he => Except.noConfusion he)
  | .ok _, .error _ => isFalse (fun he => Except.noConfusion he)

/-- One attribute of a Python object's surface, as seen by
`inspect.getmembers`: a bound method (whose later invocation yields
`call`), or a property whose `getattr` evaluates the stored computation. -/
inductive Attr (α : Type) where
  | method (call : Except PyExc α)
  | propAttr (value : Except PyExc α)
deriving DecidableEq

/-- A Python object's attribute surface: attribute names with their
members. -/
abbrev Target (α : Type) : Type := List (String × Attr α)

/-- Lexicographic code-point comparison of character lists, Python's
string ordering. -/
def charListLe : List Char → List Char → Bool
  | [], _ => true
  | _ :: _, [] => false
  | a :: as, b :: bs =>
    if a.toNat < b.toNat then true
    else if b.toNat < a.toNat then false
    else charListLe as bs

theorem charListLe_total : ∀ as bs : List Char,
    charListLe as bs = true ∨ charListLe bs as = true := by
  intro as
  induction as with
  | nil => intro bs; left; rfl
  | cons a as ih =>
    intro bs
    cases bs with
    | nil => right; rfl
    | cons b bs =>
      by_cases hab : a.toNat < b.toNat
      · left; simp [charListLe, hab]
      · by_cases hba : b.toNat < a.toNat
        · right; simp [charListLe, hba]
        · rcases ih bs with h | h
          · left; simpa [charListLe, hab, hba] using h
          · right; simpa [charListLe, hab, hba] using h

theorem charListLe_trans : ∀ as bs cs : List Char,
    charListLe as bs = true → charListLe bs cs = true →
    charListLe as cs = true := by
  intro as
  induction as with
  | nil => intro bs cs _ _; rfl
  | cons a as ih =>
    intro bs cs h1 h2
    cases bs with
    | nil => simp [charListLe] at h1
    | cons b bs =>
      cases cs with
      | nil => simp [charListLe] at h2
      | cons c cs =>
        simp only [charListLe] at h1 h2 ⊢
        by_cases hab : a.toNat < b.toNat
        · by_cases hbc : b.toNat < c.toNat
          · simp [Nat.lt_trans hab hbc]
          · by_cases hcb : c.toNat < b.toNat
            · simp [charListLe, hbc, hcb] at h2
            · have hbc' : b.toNat = c.toNat := Nat.le_antisymm
                (Nat.le_of_not_lt hcb) (Nat.le_of_not_lt hbc)
              simp [hbc' ▸ hab]
        · by_cases hba : b.toNat < a.toNat
          · simp [hab, hba] at h1
          · have hab' : a.toNat = b.toNat := Nat.le_antisymm
              (Nat.le_of_not_lt hba) (Nat.le_of_not_lt hab)
            by_cases hbc : b.toNat < c.toNat
            · simp [hab' ▸ hbc]
            · by_cases hcb : c.toNat < b.toNat
              · simp [hbc, hcb] at h2
              · simp only [hab, hba, if_neg, if_pos, ite_self] at h1
                simp only [hbc, hcb, if_neg] at h2
                have hac : ¬ a.toNat < c.toNat := hab' ▸ hbc
                have hca : ¬ c.toNat < a.toNat := hab' ▸ hcb
                simp only [hac, hca, if_neg]
                exact ih bs cs (by simpa [hab, hba] using h1)
                  (by simpa [hbc, hcb] using h2)

/-- The name-ordering used by `dir()`/`inspect.getmembers` (alphabetical
by attribute name, code-point lexicographic as in Python). -/
def nameLe {α : Type} (a b : String × α) : Prop :=
  charListLe a.1.data b.1.data = true

instance {α : Type} : DecidableRel (@nameLe α) :=
  fun a b => inferInstanceAs (Decidable (charListLe a.1.data b.1.data = true))

instance {α : Type} : IsTotal (String × α) nameLe :=
  ⟨fun a b => charListLe_total a.1.data b.1.data⟩

instance {α : Type} : IsTrans (String × α) nameLe :=
  ⟨fun _ _ _ h1 h2 => charListLe_trans _ _ _ h1 h2⟩

/-- `sorted` by attribute name, as `dir()` and `inspect.getmembers` do. -/
def sortByName {α : Type} (l : List (String × α)) : List (String × α) :=
  l.insertionSort nameLe

/-- The `getattr` sweep of `inspect.getmembers(self, predicate=ismethod)`
over the (already name-sorted) attribute list: `getattr` on a property
evaluates it — an `AttributeError` is swallowed and the name skipped,
any other exception propagates out of the enumeration; non-method values
are dropped by the predicate. -/
def getmembersMethods {α : Type} :
    List (String × Attr α) → Except PyExc (List (String × Except PyExc α))
  | [] => .ok []
  | (n, a) :: rest =>
    match a with
    | .method c =>
      match getmembersMethods rest with
      | .ok r => .ok ((n, c) :: r)
      | .error e => .error e
    | .propAttr v =>
      match v with
      | .ok _ => getmembersMethods rest
      | .error .attributeError => getmembersMethods rest
      | .error e => .error e

/-- The name filter of `Scraper._get_parsing_methods`:
`method_name[0] != "_" and method_name != "update_html" and
method_name != "parse"`. -/
def isParsingName (n : String) : Bool :=
  n.data.head? ≠ some '_' && n ≠ "update_html" && n ≠ "parse"

/-- `Scraper._get_parsing_methods`: enumerate the object's methods with
`inspect.getmembers` (alphabetical order, `getattr` evaluation of every
attribute) and keep the public non-reserved ones. -/
def get_parsing_methods {α : Type} (t : Target α) :
    Except PyExc (List (String × Except PyExc α)) :=
  match getmembersMethods (sortByName t) with
  | .ok ms => .ok (ms.filter (fun p => isParsingName p.1))
  | .error e => .error e

/-- The loop of `Scraper.parse`: call each parsing method in order; an
exception in `exceptions_to_ignore` maps the key to `None` (when
`none_when_unavailable`) or omits it; any other exception propagates and
discards the partial dict. -/
def parseLoop {α : Type} (ignore : PyExc → Bool) (nwu : Bool) :
    List (String × Except PyExc α) → Except PyExc (List (String × Option α))
  | [] => .ok []
  | (n, m) :: rest =>
    match m with
    | .ok v =>
      match parseLoop ignore nwu rest with
      | .ok r => .ok ((n, some v) :: r)
      | .error e => .error e
    | .error e =>
      if ignore e then
        if nwu then
          match parseLoop ignore nwu rest with
          | .ok r => .ok ((n, none) :: r)
          | .error e2 => .error e2
        else parseLoop ignore nwu rest
      else .error e

/-- `Scraper.parse`: obtain the parsing methods (which can itself raise,
since `getattr` runs property bodies), then run the collection loop. -/
def scraper_parse {α : Type} (ignore : PyExc → Bool) (nwu : Bool)
    (t : Target α) : Except PyExc (List (String × Option α)) :=
  match get_parsing_methods t with
  | .ok ms => parseLoop ignore nwu ms
  | .error e => .error e

/-- The default `exceptions_to_ignore = (ExpectedParsingError,)`. -/
def defaultIgnore : PyExc → Bool
  | .expectedParsingError => true
  | _ => false

/-- A method outcome raises no exception outside `ignore`. -/
def errIgnored {α : Type} (ignore : PyExc → Bool) : Except PyExc α → Bool
  | .ok _ => true
  | .error e => ignore e

/-- The value of a non-raising method outcome. -/
def valueOf {α : Type} : Except PyExc α → Option α
  | .ok v => some v
  | .error _ => none

/-- A Python scalar cell value in a parsed table row. -/
inductive PyVal where
  | vNone
  | vStr (s : String)
  | vInt (n : Int)
deriving DecidableEq, Repr

/-- Python truthiness of a cell value (`if row['class']`). -/
def truthy : PyVal → Bool
  | .vNone => false
  | .vStr s => s ≠ ""
  | .vInt n => n ≠ 0

/-- One parsed table row: a dict as an insertion-ordered association
list from field name to value. -/
abbrev Row : Type := List (String × PyVal)

/-- Error raised by the table engine. -/
inductive TableError where
  | shapeMismatch
deriving DecidableEq, Repr

/-- Modelled from the spec: `TableParser.extend_table` (the
`table_parser` module is not part of the provided sources) — merges a
value sequence into the rows under a new field name by positional
correspondence; the lengths must match the row count or the operation
fails with `ShapeMismatch`.  A Python dict assignment appends the new
key after the existing ones. -/
def extend_table (rows : List Row) (name : String) (values : List PyVal) :
    Except TableError (List Row) :=
  if rows.length = values.length then
    .ok (List.zipWith (fun (row : Row) v => row ++ [(name, v)]) rows values)
  else .error .shapeMismatch

/-- `x.replace("(", "").replace(")", "").replace(" ", "")`. -/
def removeParens (s : String) : String :=
  String.mk (s.data.filter (fun c => c ≠ '(' && c ≠ ')' && c ≠ ' '))

/-- The class-cell transform of `Rider.teams_history`:
`x.replace("(", "").replace(")", "").replace(" ", "") if x and "retired"
not in x else None`. -/
def classTransform (x : String) : PyVal :=
  if x ≠ "" && !strContains "retired".data x.data then .vStr (removeParens x)
  else .vNone

/-- `row['class']` lookup followed by the truthiness test of the row
filter in `Rider.teams_history`. -/
def classTruthy (row : Row) : Bool :=
  match List.lookup "class" row with
  | some v => truthy v
  | none => false

/-- The tail of `Rider.teams_history` after the casual fields have been
parsed: derive the class column from the raw cells, extend the table
with it, keep only the rows whose class value is truthy, and pop the
`class` key from every remaining row when the caller did not request
it. -/
def teams_history_tail (fields : List String) (parsed : List Row)
    (classCells : List String) : Except TableError (List Row) :=
  match extend_table parsed "class" (classCells.map classTransform) with
  | .error e => .error e
  | .ok extended =>
    let table := extended.filter classTruthy
    if "class" ∈ fields then .ok table
    else .ok (table.map (fun row => row.eraseP (fun kv => kv.1 == "class")))

/-- `getattr` on this attribute either succeeds, or raises only
`AttributeError` (swallowed by `getmembers`) or `ExpectedParsingError`. -/
def propBenign {α : Type} : Attr α → Bool
  | .method _ => true
  | .propAttr (.ok _) => true
  | .propAttr (.error e) =>
    e = PyExc.attributeError || e = PyExc.expectedParsingError

theorem parseLoop_all_ignored_true {α : Type} (ignore : PyExc → Bool)
    (l : List (String × Except PyExc α))
    (h : ∀ p ∈ l, errIgnored ignore p.2 = true) :
    parseLoop ignore true l = .ok (l.map (fun p => (p.1, valueOf p.2))) := by
  induction l with
  | nil => rfl
  | cons p rest ih =>
    obtain ⟨n, m⟩ := p
    have hrest := ih (fun q hq => h q (List.mem_cons_of_mem _ hq))
    cases m with
    | ok v => simp [parseLoop, hrest, valueOf]
    | error e =>
      have he : ignore e = true := h (n, .error e) (List.mem_cons_self _ _)
      simp [parseLoop, he, hrest, valueOf]

theorem parseLoop_all_ignored_false {α : Type} (ignore : PyExc → Bool)
    (l : List (String × Except PyExc α))
    (h : ∀ p ∈ l, errIgnored ignore p.2 = true) :
    parseLoop ignore false l =
      .ok (l.filterMap (fun p => (valueOf p.2).map (fun v => (p.1, some v)))) := by
  induction l with
  | nil => rfl
  | cons p rest ih =>
    obtain ⟨n, m⟩ := p
    have hrest := ih (fun q hq => h q (List.mem_cons_of_mem _ hq))
    cases m with
    | ok v => simp [parseLoop, hrest, valueOf]
    | error e =>
      have he : ignore e = true := h (n, .error e) (List.mem_cons_self _ _)
      simp [parseLoop, he, hrest, valueOf]

theorem parseLoop_abort {α : Type} (ignore : PyExc → Bool) (nwu : Bool)
    (pre : List (String × Except PyExc α)) (n : String) (e : PyExc)
    (rest : List (String × Except PyExc α))
    (hpre : ∀ p ∈ pre, errIgnored ignore p.2 = true)
    (he : ignore e = false) :
    parseLoop ignore nwu (pre ++ (n, .error e) :: rest) = .error e := by
  induction pre with
  | nil => simp [parseLoop, he]
  | cons p pre ih =>
    obtain ⟨n', m⟩ := p
    have hrest := ih (fun q hq => hpre q (List.mem_cons_of_mem _ hq))
    cases m with
    | ok v => simp [parseLoop, hrest]
    | error e' =>
      have he' : ignore e' = true := hpre (n', .error e') (List.mem_cons_self _ _)
      cases nwu <;> simp [parseLoop, he', hrest]

theorem mem_getmembersMethods {α : Type} (l : List (String × Attr α))
    (r : List (String × Except PyExc α)) (hok : getmembersMethods l = .ok r)
    (n : String) (c : Except PyExc α) :
    (n, c) ∈ r ↔ (n, Attr.method c) ∈ l := by
  induction l generalizing r with
  | nil =>
    simp only [getmembersMethods] at hok
    cases hok
    simp
  | cons p rest ih =>
    obtain ⟨n', a⟩ := p
    cases a with
    | method m =>
      simp only [getmembersMethods] at hok
      cases hr : getmembersMethods rest with
      | ok r' =>
        rw [hr] at hok
        cases hok
        simp only [List.mem_cons, Prod.mk.injEq]
        constructor
        · rintro (⟨rfl, rfl⟩ | hm)
          · exact Or.inl ⟨rfl, rfl⟩
          · exact Or.inr ((ih r' hr).mp hm)
        · rintro (⟨rfl, ha⟩ | hm)
          · cases ha; exact Or.inl ⟨rfl, rfl⟩
          · exact Or.inr ((ih r' hr).mpr hm)
      | error e => rw [hr] at hok; cases hok
    | propAttr v =>
      have step : getmembersMethods ((n', Attr.propAttr v) :: rest) =
          getmembersMethods rest ∨
          ∃ e, getmembersMethods ((n', Attr.propAttr v) :: rest) = .error e := by
        cases v with
        | ok w => exact Or.inl rfl
        | error e =>
          cases e with
          | attributeError => exact Or.inl rfl
          | expectedParsingError => exact Or.inr ⟨_, rfl⟩
          | parsedValueInvalidError => exact Or.inr ⟨_, rfl⟩
          | indexError => exact Or.inr ⟨_, rfl⟩
          | valueError msg => exact Or.inr ⟨_, rfl⟩
      rcases step with hstep | ⟨e, hstep⟩
      · rw [hstep] at hok
        rw [ih r hok]
        simp
      · rw [hstep] at hok; cases hok

theorem getmembersMethods_names_sublist {α : Type}
    (l : List (String × Attr α)) (r : List (String × Except PyExc α))
    (hok : getmembersMethods l = .ok r) :
    (r.map Prod.fst).Sublist (l.map Prod.fst) := by
  induction l generalizing r with
  | nil =>
    simp only [getmembersMethods] at hok
    cases hok
    simp
  | cons p rest ih =>
    obtain ⟨n', a⟩ := p
    cases a with
    | method m =>
      simp only [getmembersMethods] at hok
      cases hr : getmembersMethods rest with
      | ok r' =>
        rw [hr] at hok
        cases hok
        simpa using List.Sublist.cons₂ n' (ih r' hr)
      | error e => rw [hr] at hok; cases hok
    | propAttr v =>
      cases v with
      | ok w => exact List.Sublist.cons n' (ih r hok)
      | error e =>
        cases e with
        | attributeError => exact List.Sublist.cons n' (ih r hok)
        | expectedParsingError => cases hok
        | parsedValueInvalidError => cases hok
        | indexError => cases hok
        | valueError msg => cases hok

theorem getmembersMethods_propagates {α : Type}
    (l : List (String × Attr α))
    (hben : ∀ p ∈ l, propBenign p.2 = true)
    (hraise : ∃ p ∈ l, p.2 = Attr.propAttr (Except.error PyExc.expectedParsingError)) :
    getmembersMethods l = .error PyExc.expectedParsingError := by
  induction l with
  | nil => simp at hraise
  | cons p rest ih =>
    obtain ⟨n', a⟩ := p
    obtain ⟨q, hq, hq2⟩ := hraise
    rcases List.mem_cons.mp hq with rfl | hqrest
    · simp only at hq2
      rw [hq2]
      rfl
    · have hrest := ih (fun q' hq' => hben q' (List.mem_cons_of_mem _ hq'))
        ⟨q, hqrest, hq2⟩
      have hb : propBenign a = true := hben (n', a) (List.mem_cons_self _ _)
      cases a with
      | method m => simp [getmembersMethods, hrest]
      | propAttr v =>
        cases v with
        | ok w => simpa [getmembersMethods] using hrest
        | error e =>
          simp only [propBenign, Bool.or_eq_true, decide_eq_true_eq] at hb
          rcases hb with rfl | rfl
          · simpa [getmembersMethods] using hrest
          · rfl

theorem sortByName_perm {α : Type} (l : List (String × α)) :
    (sortByName l).Perm l :=
  List.perm_insertionSort nameLe l

theorem sortByName_sorted {α : Type} (l : List (String × α)) :
    (sortByName l).Pairwise nameLe :=
  List.sorted_insertionSort nameLe l

theorem mem_get_parsing_methods {α : Type} (t : Target α)
    (ms : List (String × Except PyExc α)) (hok : get_parsing_methods t = .ok ms)
    (n : String) (c : Except PyExc α) :
    (n, c) ∈ ms ↔ (n, Attr.method c) ∈ t ∧ isParsingName n = true := by
  simp only [get_parsing_methods] at hok
  cases hr : getmembersMethods (sortByName t) with
  | ok r =>
    rw [hr] at hok
    cases hok
    rw [List.mem_filter]
    rw [mem_getmembersMethods _ r hr]
    rw [(sortByName_perm t).mem_iff]
  | error e => rw [hr] at hok; cases hok

theorem pairwise_get_parsing_methods {α : Type} (t : Target α)
    (ms : List (String × Except PyExc α))
    (hok : get_parsing_methods t = .ok ms) :
    ms.Pairwise nameLe := by
  simp only [get_parsing_methods] at hok
  cases hr : getmembersMethods (sortByName t) with
  | ok r =>
    rw [hr] at hok
    cases hok
    have hsorted : ((sortByName t).map Prod.fst).Pairwise
        (fun x y : String => charListLe x.data y.data = true) := by
      rw [List.pairwise_map]
      exact sortByName_sorted t
    have hsub := getmembersMethods_names_sublist _ r hr
    have hr' : (r.map Prod.fst).Pairwise
        (fun x y : String => charListLe x.data y.data = true) :=
      hsorted.sublist hsub
    have hrp : r.Pairwise nameLe :=
      (List.pairwise_map.mp hr').imp (fun h => h)
    exact hrp.sublist (List.filter_sublist r)
  | error e => rw [hr] at hok; cases hok

theorem scraper_parse_propagates {α : Type} (ignore : PyExc → Bool)
    (nwu : Bool) (t : Target α)
    (hben : ∀ p ∈ t, propBenign p.2 = true)
    (hraise : ∃ p ∈ t, p.2 = Attr.propAttr (Except.error PyExc.expectedParsingError)) :
    scraper_parse ignore nwu t = .error PyExc.expectedParsingError := by
  have hben' : ∀ p ∈ sortByName t, propBenign p.2 = true :=
    fun p hp => hben p ((sortByName_perm t).mem_iff.mp hp)
  have hraise' : ∃ p ∈ sortByName t,
      p.2 = Attr.propAttr (Except.error PyExc.expectedParsingError) := by
    obtain ⟨p, hp, h2⟩ := hraise
    exact ⟨p, (sortByName_perm t).mem_iff.mpr hp, h2⟩
  have hmem := getmembersMethods_propagates _ hben' hraise'
  simp [scraper_parse, get_parsing_methods, hmem]

theorem splitOnSlash_ne_nil : ∀ l : List Char, splitOnSlash l ≠ [] := by
  intro l
  cases l with
  | nil => simp [splitOnSlash]
  | cons c cs =>
    simp only [splitOnSlash]
    by_cases h : c = '/'
    · simp [h]
    · simp only [h, if_false]
      cases splitOnSlash cs <;> simp

theorem splitOnSlash_append : ∀ xs ys : List Char,
    splitOnSlash (xs ++ '/' :: ys) = splitOnSlash xs ++ splitOnSlash ys := by
  intro xs ys
  induction xs with
  | nil => simp [splitOnSlash]
  | cons c cs ih =>
    by_cases h : c = '/'
    · simp [splitOnSlash, h, ih]
    · simp only [List.cons_append, splitOnSlash, h, if_false, List.append_eq]
      rw [ih]
      cases hcs : splitOnSlash cs with
      | nil => exact absurd hcs (splitOnSlash_ne_nil cs)
      | cons hd tl => simp

theorem joinSlash_splitOnSlash : ∀ l : List Char,
    joinSlash (splitOnSlash l) = l := by
  intro l
  induction l with
  | nil => rfl
  | cons c cs ih =>
    by_cases h : c = '/'
    · subst h
      simp only [splitOnSlash, if_pos rfl]
      cases hcs : splitOnSlash cs with
      | nil => exact absurd hcs (splitOnSlash_ne_nil cs)
      | cons hd tl =>
        rw [hcs] at ih
        simp [joinSlash, ih]
    · simp only [splitOnSlash, h, if_false]
      cases hcs : splitOnSlash cs with
      | nil => exact absurd hcs (splitOnSlash_ne_nil cs)
      | cons hd tl =>
        rw [hcs] at ih
        cases tl with
        | nil => simpa [joinSlash] using congrArg (c :: ·) ih
        | cons t1 t2 => simpa [joinSlash] using congrArg (c :: ·) ih

theorem base_url_data :
    BASE_URL.data = "https://www.procyclingstats.com".data ++ '/' :: [] := by
  decide

theorem relative_url_base_append (l : List Char) :
    relative_url (BASE_URL ++ String.mk l) = String.mk l := by
  have hdata : (BASE_URL ++ String.mk l).data =
      "https://www.procyclingstats.com".data ++ '/' :: l := by
    show BASE_URL.data ++ l = _
    rw [base_url_data, List.append_assoc]
    rfl
  have hsplit : splitOnSlash ("https://www.procyclingstats.com".data) =
      ["https:".data, [], "www.procyclingstats.com".data] := by decide
  simp only [relative_url, hdata, splitOnSlash_append, hsplit]
  simp [joinSlash_splitOnSlash]

theorem containsHttps_base_append (s : String) :
    containsHttps (BASE_URL ++ s) = true := by
  show strContains "https".data (BASE_URL.data ++ s.data) = true
  rw [base_url_data]
  simp [strContains, startsWithChars]

/-- Modelled from the spec: stripping exactly one trailing path
separator when one is present. -/
def stripTrailingSlash (u : String) : String :=
  match u.data.getLast? with
  | none => u
  | some c => if c = '/' then String.mk u.data.dropLast else u

theorem lookup_class_append (row : Row) (v : PyVal)
    (h : ∀ kv ∈ row, kv.1 ≠ "class") :
    List.lookup "class" (row ++ [("class", v)]) = some v := by
  induction row with
  | nil => simp
  | cons kv rest ih =>
    obtain ⟨k, b⟩ := kv
    have h1 : k ≠ "class" := h (k, b) (List.mem_cons_self _ _)
    have hbeq : ("class" == k) = false := beq_eq_false_iff_ne.mpr (Ne.symm h1)
    simp only [List.cons_append, List.lookup, hbeq]
    exact ih (fun kv hkv => h kv (List.mem_cons_of_mem _ hkv))

theorem eraseP_class_append (row : Row) (v : PyVal)
    (h : ∀ kv ∈ row, kv.1 ≠ "class") :
    (row ++ [("class", v)]).eraseP (fun kv => kv.1 == "class") = row := by
  induction row with
  | nil => simp [List.eraseP]
  | cons kv rest ih =>
    obtain ⟨k, b⟩ := kv
    have h1 : k ≠ "class" := h (k, b) (List.mem_cons_self _ _)
    have hbeq : (k == "class") = false := beq_eq_false_iff_ne.mpr h1
    simp only [List.cons_append, List.eraseP_cons, hbeq, cond_false]
    rw [ih (fun kv hkv => h kv (List.mem_cons_of_mem _ hkv))]

theorem classTruthy_append (row : Row) (v : PyVal)
    (h : ∀ kv ∈ row, kv.1 ≠ "class") :
    classTruthy (row ++ [("class", v)]) = truthy v := by
  simp [classTruthy, lookup_class_append row v h]

theorem mem_zip_extend (parsed : List Row) (vals : List PyVal) (x : Row)
    (hx : x ∈ List.zipWith (fun (r : Row) v => r ++ [("class", v)]) parsed vals) :
    ∃ r v, r ∈ parsed ∧ v ∈ vals ∧ x = r ++ [("class", v)] := by
  induction parsed generalizing vals with
  | nil => simp at hx
  | cons r rest ih =>
    cases vals with
    | nil => simp at hx
    | cons v vs =>
      simp only [List.zipWith_cons_cons, List.mem_cons] at hx
      rcases hx with rfl | hx
      · exact ⟨r, v, List.mem_cons_self _ _, List.mem_cons_self _ _, rfl⟩
      · obtain ⟨r', v', hr, hv, hxe⟩ := ih vs hx
        exact ⟨r', v', List.mem_cons_of_mem _ hr, List.mem_cons_of_mem _ hv, hxe⟩

/-- Rows whose field-name list avoids `"class"` have no `"class"` key. -/
theorem noClassKey {ks : List String} (r : Row)
    (hkeys : r.map Prod.fst = ks) (hnc : "class" ∉ ks) :
    ∀ kv ∈ r, kv.1 ≠ "class" := by
  intro kv hkv heq
  apply hnc
  rw [← hkeys, ← heq]
  exact List.mem_map_of_mem Prod.fst hkv

theorem kept_length (parsed : List Row) (vals : List PyVal) (ks : List String)
    (hkeys : ∀ r ∈ parsed, r.map Prod.fst = ks) (hnc : "class" ∉ ks)
    (hlen : parsed.length = vals.length) :
    ((List.zipWith (fun (r : Row) v => r ++ [("class", v)]) parsed vals).filter
        classTruthy).length = vals.countP truthy := by
  induction parsed generalizing vals with
  | nil =>
    cases vals with
    | nil => rfl
    | cons v vs => simp at hlen
  | cons r rest ih =>
    cases vals with
    | nil => simp at hlen
    | cons v vs =>
      have hr := hkeys r (List.mem_cons_self _ _)
      have hct := classTruthy_append r v (noClassKey r hr hnc)
      have ihh := ih vs (fun q hq => hkeys q (List.mem_cons_of_mem _ hq))
        (by simpa using hlen)
      simp only [List.zipWith_cons_cons, List.filter_cons, List.countP_cons, hct]
      cases htv : truthy v <;> simp [htv, ihh]

/-- Claim C1: for every target and every operation in its operation set,
if invoking the operation raises a failure kind in the ignored set,
`parse` maps that operation's name to null when `none_when_unavailable`
is true and omits the key when it is false, then continues with the
remaining operations; a dispatch in which every failure is of an ignored
kind never raises and yields one entry per non-failing-or-nulled
operation. -/
theorem dispatch_ignored_failures {α : Type} (ignore : PyExc → Bool)
    (t : Target α) (ms : List (String × Except PyExc α))
    (hok : get_parsing_methods t = .ok ms)
    (hign : ∀ p ∈ ms, errIgnored ignore p.2 = true) :
    scraper_parse ignore true t = .ok (ms.map (fun p => (p.1, valueOf p.2))) ∧
    scraper_parse ignore false t =
      .ok (ms.filterMap (fun p => (valueOf p.2).map (fun v => (p.1, some v)))) := by
  constructor
  · simp [scraper_parse, hok, parseLoop_all_ignored_true ignore ms hign]
  · simp [scraper_parse, hok, parseLoop_all_ignored_false ignore ms hign]

theorem dispatch_ignored_failures_witness :
    scraper_parse defaultIgnore true
        [("b", Attr.method (Except.error PyExc.expectedParsingError)),
         ("a", Attr.method (Except.ok "v")),
         ("_x", Attr.method (Except.ok "z")),
         ("update_html", Attr.method (Except.ok "u")),
         ("parse", Attr.method (Except.ok "p")),
         ("html", Attr.propAttr (Except.ok "doc"))]
      = .ok [("a", some "v"), ("b", none)] ∧
    scraper_parse defaultIgnore false
        [("b", Attr.method (Except.error PyExc.expectedParsingError)),
         ("a", Attr.method (Except.ok "v")),
         ("_x", Attr.method (Except.ok "z")),
         ("update_html", Attr.method (Except.ok "u")),
         ("parse", Attr.method (Except.ok "p")),
         ("html", Attr.propAttr (Except.ok "doc"))]
      = .ok [("a", some "v")] := by
  have h := dispatch_ignored_failures defaultIgnore
    [("b", Attr.method (Except.error PyExc.expectedParsingError)),
     ("a", Attr.method (Except.ok "v")),
     ("_x", Attr.method (Except.ok "z")),
     ("update_html", Attr.method (Except.ok "u")),
     ("parse", Attr.method (Except.ok "p")),
     ("html", Attr.propAttr (Except.ok "doc"))]
    [("a", Except.ok "v"), ("b", Except.error PyExc.expectedParsingError)]
    (by decide) (by decide)
  exact ⟨h.1.trans (by decide), h.2.trans (by decide)⟩

/-- Claim C2: for every target, if some operation raises a failure kind
outside the ignored set, dispatch propagates that failure immediately,
returns no result map (not even a partial one), and the outcome does not
depend on the operations after the failing one in invocation order. -/
theorem dispatch_aborts_on_unexpected {α : Type} (ignore : PyExc → Bool)
    (nwu : Bool) (t : Target α) (pre : List (String × Except PyExc α))
    (n : String) (e : PyExc) (rest : List (String × Except PyExc α))
    (hok : get_parsing_methods t = .ok (pre ++ (n, .error e) :: rest))
    (hpre : ∀ p ∈ pre, errIgnored ignore p.2 = true)
    (he : ignore e = false) :
    scraper_parse ignore nwu t = .error e ∧
    ∀ rest2, parseLoop ignore nwu (pre ++ (n, .error e) :: rest2) = .error e := by
  refine ⟨?_, fun rest2 => parseLoop_abort ignore nwu pre n e rest2 hpre he⟩
  simp [scraper_parse, hok, parseLoop_abort ignore nwu pre n e rest hpre he]

theorem dispatch_aborts_on_unexpected_witness :
    scraper_parse defaultIgnore true
        [("a", Attr.method (Except.ok "1")),
         ("b", Attr.method (Except.error (PyExc.valueError "boom"))),
         ("c", Attr.method (Except.ok "2"))]
      = .error (PyExc.valueError "boom") :=
  (dispatch_aborts_on_unexpected defaultIgnore true
    [("a", Attr.method (Except.ok "1")),
     ("b", Attr.method (Except.error (PyExc.valueError "boom"))),
     ("c", Attr.method (Except.ok "2"))]
    [("a", Except.ok "1")] "b" (PyExc.valueError "boom")
    [("c", Except.ok "2")] (by decide) (by decide) (by decide)).1

/-- Claim C3: for every target, the operation set `parse` dispatches over
is exactly the public (non-underscore-prefixed) bound methods minus the
two reserved names `update_html` and `parse`, and the invocation order —
hence the key order of the returned map — is lexicographic by operation
name (so deterministic for a fixed operation set). -/
theorem parsing_method_enumeration {α : Type} (t : Target α)
    (ms : List (String × Except PyExc α))
    (hok : get_parsing_methods t = .ok ms) :
    (∀ (n : String) (c : Except PyExc α),
      (n, c) ∈ ms ↔ (n, Attr.method c) ∈ t ∧ isParsingName n = true) ∧
    ms.Pairwise nameLe ∧
    ∀ (ignore : PyExc → Bool) (nwu : Bool),
      scraper_parse ignore nwu t = parseLoop ignore nwu ms :=
  ⟨mem_get_parsing_methods t ms hok,
   pairwise_get_parsing_methods t ms hok,
   fun ignore nwu => by simp [scraper_parse, hok]⟩

theorem parsing_method_enumeration_witness :
    (("a", Except.ok (2 : Int)) ∈
        ([("a", Except.ok 2), ("b", Except.ok 1)] :
          List (String × Except PyExc Int)) ↔
      ("a", Attr.method (Except.ok (2 : Int))) ∈
        ([("b", Attr.method (Except.ok 1)), ("a", Attr.method (Except.ok 2)),
          ("parse", Attr.method (Except.ok 3))] : Target Int) ∧
      isParsingName "a" = true) ∧
    ([("a", Except.ok 2), ("b", Except.ok 1)] :
      List (String × Except PyExc Int)).Pairwise nameLe := by
  have h := parsing_method_enumeration
    ([("b", Attr.method (Except.ok 1)), ("a", Attr.method (Except.ok 2)),
      ("parse", Attr.method (Except.ok 3))] : Target Int)
    [("a", Except.ok 2), ("b", Except.ok 1)] (by decide)
  exact ⟨h.1 "a" (Except.ok 2), h.2.1⟩

/-- Claim C4: for every URL, `update_html` fails with the invalid-URL
error carrying that URL exactly when the fetched page's primary heading
text equals "Page not found"; when the heading text differs, the parsed
document is stored; and no other property of the network response (such
as the HTTP status code) influences success or failure. -/
theorem update_html_not_found (fetch : String → Page) (s : ScraperState)
    (h : String) (hh : (fetch s.url).heading = some h) :
    ((update_html fetch s).2 =
        some (.valueError ("Invalid URL: " ++ s.url)) ↔
      h = "Page not found") ∧
    (h ≠ "Page not found" →
      (update_html fetch s).1.html = some (fetch s.url) ∧
      (update_html fetch s).2 = none) ∧
    ∀ fetch2 : String → Page,
      (fetch2 s.url).heading = (fetch s.url).heading →
      (update_html fetch2 s).2 = (update_html fetch s).2 := by
  by_cases hpn : h = "Page not found"
  · refine ⟨⟨fun _ => hpn, fun _ => by simp [update_html, hh, hpn]⟩,
      fun hne => absurd hpn hne, fun fetch2 h2 => ?_⟩
    have hh2 : (fetch2 s.url).heading = some h := by rw [h2, hh]
    simp [update_html, hh, hh2, hpn]
  · refine ⟨⟨fun hc => ?_, fun hc => absurd hc hpn⟩,
      fun _ => ⟨?_, ?_⟩, fun fetch2 h2 => ?_⟩
    · exfalso
      simp [update_html, hh, hpn] at hc
    · simp [update_html, hh, hpn]
    · simp [update_html, hh, hpn]
    · have hh2 : (fetch2 s.url).heading = some h := by rw [h2, hh]
      simp [update_html, hh, hh2, hpn]

theorem update_html_not_found_witness :
    (update_html (fun _ => Page.mk (some "Rider Name") "body" 404)
        (ScraperState.mk "https://www.procyclingstats.com/rider/x" none)).1.html
      = some (Page.mk (some "Rider Name") "body" 404) ∧
    (update_html (fun _ => Page.mk (some "Rider Name") "body" 404)
        (ScraperState.mk "https://www.procyclingstats.com/rider/x" none)).2
      = none :=
  (update_html_not_found (fun _ => Page.mk (some "Rider Name") "body" 404)
    (ScraperState.mk "https://www.procyclingstats.com/rider/x" none)
    "Rider Name" rfl).2.1 (by decide)

/-- Claim C5 counterexample: reading the cached document while unfetched
raises `ExpectedParsingError` — the very kind the dispatcher ignores by
default (and the loop converts it to null), so it is not a failure kind
distinct from the "field unavailable" kind as the claim states. -/
theorem unfetched_error_is_ignored_kind :
    htmlAccess
        (ScraperState.mk "https://www.procyclingstats.com/rider/x" none)
      = .error PyExc.expectedParsingError ∧
    defaultIgnore PyExc.expectedParsingError = true ∧
    parseLoop defaultIgnore true
        [("x", (Except.error PyExc.expectedParsingError : Except PyExc String))]
      = .ok [("x", none)] := by decide

/-- Claim C5 as amended: reading the cached document while unfetched
fails with `ExpectedParsingError`, the same kind as the default-ignored
"field unavailable" kind; a dispatch over an unfetched target still
propagates that failure to the caller — for any ignore set — because
the method enumeration step of `parse` evaluates the `html` property
(via `getattr`) outside the per-operation handler. -/
theorem unfetched_dispatch_propagates {α : Type} (s : ScraperState)
    (t : Target α) (pageF : Page → α) (ignore : PyExc → Bool) (nwu : Bool)
    (hs : s.html = none)
    (hben : ∀ p ∈ t, propBenign p.2 = true)
    (hhtml : ("html", Attr.propAttr ((htmlAccess s).map pageF)) ∈ t) :
    htmlAccess s = .error PyExc.expectedParsingError ∧
    scraper_parse ignore nwu t = .error PyExc.expectedParsingError := by
  have hA : htmlAccess s = .error PyExc.expectedParsingError := by
    simp [htmlAccess, hs]
  refine ⟨hA, scraper_parse_propagates ignore nwu t hben ⟨_, hhtml, ?_⟩⟩
  rw [hA]
  rfl

theorem unfetched_dispatch_propagates_witness :
    htmlAccess (ScraperState.mk "https://www.procyclingstats.com/rider/x" none)
      = .error PyExc.expectedParsingError ∧
    scraper_parse defaultIgnore true
        [("html", Attr.propAttr
          ((htmlAccess (ScraperState.mk
            "https://www.procyclingstats.com/rider/x" none)).map Page.body)),
         ("name", Attr.method (Except.ok "Tadej"))]
      = .error PyExc.expectedParsingError :=
  unfetched_dispatch_propagates
    (ScraperState.mk "https://www.procyclingstats.com/rider/x" none)
    [("html", Attr.propAttr
      ((htmlAccess (ScraperState.mk
        "https://www.procyclingstats.com/rider/x" none)).map Page.body)),
     ("name", Attr.method (Except.ok "Tadej"))]
    Page.body defaultIgnore true rfl (by decide) (by decide)

/-- Claim C6 counterexample: a refresh that fails the not-found check
raises before the assignment to `self._html`, so the object still holds
the pre-refresh document afterwards — refuting "after any refresh call,
whether it succeeds or fails, the object never holds the pre-refresh
Document". -/
theorem refresh_failure_keeps_document :
    (update_html (fun _ => Page.mk (some "Page not found") "nf" 200)
        (ScraperState.mk "https://www.procyclingstats.com/rider/x"
          (some (Page.mk (some "Old Rider") "old body" 200)))).2
      = some (.valueError
          "Invalid URL: https://www.procyclingstats.com/rider/x") ∧
    (update_html (fun _ => Page.mk (some "Page not found") "nf" 200)
        (ScraperState.mk "https://www.procyclingstats.com/rider/x"
          (some (Page.mk (some "Old Rider") "old body" 200)))).1.html
      = some (Page.mk (some "Old Rider") "old body" 200) := by decide

/-- Claim C6 as amended: a successful refresh replaces the cached
document wholesale and atomically with the newly fetched one; a refresh
that fails (not-found page or missing heading) raises before the
assignment and leaves the whole object — including the pre-refresh
document — unchanged. -/
theorem refresh_replacement (fetch : String → Page) (s : ScraperState) :
    ((update_html fetch s).2 = none →
      (update_html fetch s).1 = { s with html := some (fetch s.url) }) ∧
    ((update_html fetch s).2 ≠ none → (update_html fetch s).1 = s) := by
  cases hh : (fetch s.url).heading with
  | none => simp [update_html, hh]
  | some t =>
    by_cases hpn : t = "Page not found" <;> simp [update_html, hh, hpn]

theorem refresh_replacement_witness :
    (update_html (fun _ => Page.mk (some "Page not found") "nf" 200)
        (ScraperState.mk "https://www.procyclingstats.com/rider/x"
          (some (Page.mk (some "Old Rider") "old body" 200)))).1
      = ScraperState.mk "https://www.procyclingstats.com/rider/x"
          (some (Page.mk (some "Old Rider") "old body" 200)) :=
  (refresh_replacement (fun _ => Page.mk (some "Page not found") "nf" 200)
    (ScraperState.mk "https://www.procyclingstats.com/rider/x"
      (some (Page.mk (some "Old Rider") "old body" 200)))).2 (by decide)

/-- Claim C7 counterexample: the older normalizer strips only a trailing
separator, so for the input "/rider" — which has a leading separator —
nothing is stripped and the result duplicates the separator at the join
point, refuting "stripping exactly one leading or trailing path separator
when one is present (so no duplicated separator appears at the join
point)". -/
theorem format_url_duplicated_separator :
    format_url "/rider" = .ok "https://www.procyclingstats.com//rider" ∧
    format_url "/rider" ≠ .ok (BASE_URL ++ canonicalRelative "/rider") ∧
    make_absolute_url "/rider"
      = .ok "https://www.procyclingstats.com/rider" := by decide

/-- Claim C7 as amended: inputs containing the scheme substring are
returned unchanged; for nonempty inputs without it, the newer normalizer
(`_make_absolute_url`) returns the base origin concatenated with the
input after stripping exactly one leading separator when present, while
the older one (`_format_url`) strips exactly one trailing separator when
present — and may therefore duplicate the separator at the join point
for inputs with a leading separator. -/
theorem absolutize_amended (url : String) :
    (containsHttps url = true →
      make_absolute_url url = .ok url ∧ format_url url = .ok url) ∧
    (containsHttps url = false → url ≠ "" →
      make_absolute_url url = .ok (BASE_URL ++ canonicalRelative url) ∧
      format_url url = .ok (BASE_URL ++ stripTrailingSlash url)) := by
  constructor
  · intro hc
    exact ⟨by simp [make_absolute_url, hc], by simp [format_url, hc]⟩
  · intro hc hne
    obtain ⟨l⟩ := url
    constructor
    · cases l with
      | nil => exact absurd rfl hne
      | cons c rest =>
        by_cases hcs : c = '/'
        · subst hcs
          simp [make_absolute_url, canonicalRelative, hc]
        · simp [make_absolute_url, canonicalRelative, hc, hcs]
    · cases hgl : (String.mk l).data.getLast? with
      | none =>
        exfalso
        cases l with
        | nil => exact hne rfl
        | cons c rest => simp [List.getLast?_eq_none_iff] at hgl
      | some c =>
        by_cases hcs : c = '/'
        · subst hcs
          simp [format_url, stripTrailingSlash, hc, hgl]
        · simp [format_url, stripTrailingSlash, hc, hgl, hcs]

theorem absolutize_amended_witness :
    make_absolute_url "/rider"
        = .ok (BASE_URL ++ canonicalRelative "/rider") ∧
    format_url "/rider" = .ok (BASE_URL ++ stripTrailingSlash "/rider") :=
  (absolutize_amended "/rider").2 (by decide) (by decide)

/-- Claim C8: for every valid (nonempty, scheme-free) relative path `p`,
`relative_url` applied to the absolutized URL yields the canonical
path-only identifier of `p`, and absolutization is idempotent on every
input (a second pass leaves any first-pass result unchanged, errors
included). -/
theorem relative_url_roundtrip (p : String) :
    ((make_absolute_url p).bind make_absolute_url = make_absolute_url p) ∧
    (p ≠ "" → containsHttps p = false →
      ∃ a, make_absolute_url p = .ok a ∧
        relative_url a = canonicalRelative p) := by
  constructor
  · by_cases hc : containsHttps p
    · have h1 : make_absolute_url p = .ok p := by simp [make_absolute_url, hc]
      rw [h1]
      exact h1
    · obtain ⟨l⟩ := p
      cases l with
      | nil =>
        have h1 : make_absolute_url (String.mk []) = .error .indexError := by
          simp [make_absolute_url, hc]
        rw [h1]
        rfl
      | cons c rest =>
        by_cases hcs : c = '/'
        · subst hcs
          have h1 : make_absolute_url (String.mk ('/' :: rest))
              = .ok (BASE_URL ++ String.mk rest) := by
            simp [make_absolute_url, hc]
          rw [h1]
          show make_absolute_url (BASE_URL ++ String.mk rest)
            = .ok (BASE_URL ++ String.mk rest)
          simp [make_absolute_url, containsHttps_base_append]
        · have h1 : make_absolute_url (String.mk (c :: rest))
              = .ok (BASE_URL ++ String.mk (c :: rest)) := by
            simp [make_absolute_url, hc, hcs]
          rw [h1]
          show make_absolute_url (BASE_URL ++ String.mk (c :: rest))
            = .ok (BASE_URL ++ String.mk (c :: rest))
          simp [make_absolute_url, containsHttps_base_append]
  · intro hne hc
    obtain ⟨l⟩ := p
    cases l with
    | nil => exact absurd rfl hne
    | cons c rest =>
      by_cases hcs : c = '/'
      · subst hcs
        refine ⟨BASE_URL ++ String.mk rest, ?_, ?_⟩
        · simp [make_absolute_url, hc]
        · rw [relative_url_base_append rest]
          simp [canonicalRelative]
      · refine ⟨BASE_URL ++ String.mk (c :: rest), ?_, ?_⟩
        · simp [make_absolute_url, hc, hcs]
        · rw [relative_url_base_append (c :: rest)]
          simp [canonicalRelative, hcs]

theorem relative_url_roundtrip_witness :
    (make_absolute_url "rider/tadej-pogacar").bind make_absolute_url
        = make_absolute_url "rider/tadej-pogacar" ∧
    relative_url "https://www.procyclingstats.com/rider/tadej-pogacar"
        = canonicalRelative "rider/tadej-pogacar" := by
  obtain ⟨a, h1, h2⟩ :=
    (relative_url_roundtrip "rider/tadej-pogacar").2 (by decide) (by decide)
  have ha : a = "https://www.procyclingstats.com/rider/tadej-pogacar" :=
    Except.ok.inj (h1.symm.trans (by decide :
      make_absolute_url "rider/tadej-pogacar"
        = .ok "https://www.procyclingstats.com/rider/tadej-pogacar"))
  exact ⟨(relative_url_roundtrip "rider/tadej-pogacar").1, ha ▸ h2⟩

/-- Claim C10: both absolutizers are total exactly on nonempty inputs:
on the empty string (which lacks the scheme substring) each reads a
character at an unguarded index — the first character in
`_make_absolute_url`, the last in `_format_url` — and fails with
`IndexError`; every nonempty input yields a URL. -/
theorem absolutize_empty_input (url : String) :
    (make_absolute_url url = .error PyExc.indexError ↔ url = "") ∧
    (format_url url = .error PyExc.indexError ↔ url = "") ∧
    ((∃ a, make_absolute_url url = .ok a) ↔ url ≠ "") ∧
    ((∃ a, format_url url = .ok a) ↔ url ≠ "") := by
  have hemp : containsHttps "" = false := by decide
  by_cases hc : containsHttps url
  · have hne : url ≠ "" := fun he => by rw [he] at hc; exact absurd hc (by decide)
    refine ⟨?_, ?_, ?_, ?_⟩ <;>
      simp [make_absolute_url, format_url, hc, hne]
  · obtain ⟨l⟩ := url
    cases l with
    | nil =>
      refine ⟨?_, ?_, ?_, ?_⟩ <;> simp [make_absolute_url, format_url, hc]
    | cons c rest =>
      have hne : String.mk (c :: rest) ≠ "" := by
        intro he
        exact List.noConfusion (congrArg String.data he)
      have hmk : make_absolute_url (String.mk (c :: rest)) =
          if c = '/' then .ok (BASE_URL ++ String.mk rest)
          else .ok (BASE_URL ++ String.mk (c :: rest)) := by
        simp [make_absolute_url, hc]
      cases hgl : (String.mk (c :: rest)).data.getLast? with
      | none => simp [List.getLast?_eq_none_iff] at hgl
      | some c2 =>
        have hfm : format_url (String.mk (c :: rest)) =
            if c2 = '/' then
              .ok (BASE_URL ++ String.mk (c :: rest).dropLast)
            else .ok (BASE_URL ++ String.mk (c :: rest)) := by
          simp [format_url, hc, hgl]
        refine ⟨?_, ?_, ?_, ?_⟩
        · rw [hmk]
          by_cases hcs : c = '/'
          · subst hcs
            simp [hne]
          · simp [hcs, hne]
        · rw [hfm]
          by_cases hcs : c2 = '/' <;> simp [hcs, hne]
        · rw [hmk]
          by_cases hcs : c = '/'
          · subst hcs
            simp [hne]
          · simp [hcs, hne]
        · rw [hfm]
          by_cases hcs : c2 = '/' <;> simp [hcs, hne]

/-- Claim C9: in the team-history pipeline, row filtering by the derived
class field happens before that field is pruned: every row whose derived
class value is null (e.g. a retired marker row) is removed, the number of
returned rows equals the number of truthy derived class values, every
surviving row carries a non-empty class string while the filter runs, and
when "class" is not among the requested fields the key is removed from
every remaining row uniformly, so all returned rows share one key set. -/
theorem teams_history_filter_then_prune (fields : List String)
    (parsed : List Row) (cells : List String) (ks : List String)
    (t : List Row)
    (hlen : parsed.length = cells.length)
    (hkeys : ∀ r ∈ parsed, r.map Prod.fst = ks)
    (hnc : "class" ∉ ks)
    (hok : teams_history_tail fields parsed cells = .ok t) :
    (∀ x ∈ t, "class" ∈ fields →
      ∃ s, List.lookup "class" x = some (.vStr s) ∧ s ≠ "") ∧
    (∀ x ∈ t, x.map Prod.fst =
      if "class" ∈ fields then ks ++ ["class"] else ks) ∧
    t.length = (cells.map classTransform).countP truthy := by
  have hvl : parsed.length = (cells.map classTransform).length := by
    simpa using hlen
  have hext : extend_table parsed "class" (cells.map classTransform) =
      .ok (List.zipWith (fun (r : Row) v => r ++ [("class", v)]) parsed
        (cells.map classTransform)) := by
    simp [extend_table, hvl]
  simp only [teams_history_tail, hext] at hok
  have hkept : ∀ x ∈ (List.zipWith (fun (r : Row) v => r ++ [("class", v)])
      parsed (cells.map classTransform)).filter classTruthy,
      ∃ r s, r ∈ parsed ∧ x = r ++ [("class", PyVal.vStr s)] ∧ s ≠ "" := by
    intro x hx
    rw [List.mem_filter] at hx
    obtain ⟨hmem, htr⟩ := hx
    obtain ⟨r, v, hr, hv, rfl⟩ := mem_zip_extend _ _ _ hmem
    have hnock := noClassKey r (hkeys r hr) hnc
    rw [classTruthy_append r v hnock] at htr
    obtain ⟨cc, _, rfl⟩ := List.mem_map.mp hv
    by_cases hcc : (cc ≠ "" && !strContains "retired".data cc.data) = true
    · have hct : classTransform cc = .vStr (removeParens cc) := by
        unfold classTransform
        rw [if_pos hcc]
      refine ⟨r, removeParens cc, hr, by rw [hct], ?_⟩
      intro hempty
      rw [hct, hempty] at htr
      simp [truthy] at htr
    · exfalso
      have hct : classTransform cc = .vNone := by
        unfold classTransform
        rw [if_neg hcc]
      rw [hct] at htr
      simp [truthy] at htr
  by_cases hf : "class" ∈ fields
  · rw [if_pos hf] at hok
    cases hok
    refine ⟨?_, ?_, ?_⟩
    · intro x hx _
      obtain ⟨r, s, hr, rfl, hs⟩ := hkept x hx
      exact ⟨s, lookup_class_append r _ (noClassKey r (hkeys r hr) hnc), hs⟩
    · intro x hx
      obtain ⟨r, s, hr, rfl, _⟩ := hkept x hx
      rw [if_pos hf]
      simp [hkeys r hr]
    · exact kept_length parsed _ ks hkeys hnc hvl
  · rw [if_neg hf] at hok
    cases hok
    refine ⟨?_, ?_, ?_⟩
    · intro x hx hcl
      exact absurd hcl hf
    · intro x hx
      obtain ⟨y, hy, rfl⟩ := List.mem_map.mp hx
      obtain ⟨r, s, hr, rfl, _⟩ := hkept y hy
      rw [if_neg hf, eraseP_class_append r _ (noClassKey r (hkeys r hr) hnc)]
      exact hkeys r hr
    · rw [List.length_map]
      exact kept_length parsed _ ks hkeys hnc hvl

theorem teams_history_filter_then_prune_witness :
    ([[("season", PyVal.vInt 2021)]] : List Row).length =
      ((["WT", "retired"].map classTransform).countP truthy) ∧
    ([("season", PyVal.vInt 2021)] : Row).map Prod.fst =
      (if "class" ∈ ["season"] then ["season"] ++ ["class"]
       else ["season"]) := by
  have h := teams_history_filter_then_prune ["season"]
    [[("season", PyVal.vInt 2021)], [("season", PyVal.vInt 2020)]]
    ["WT", "retired"] ["season"] [[("season", PyVal.vInt 2021)]]
    (by decide) (by decide) (by decide) (by decide)
  exact ⟨h.2.2, h.2.1 [("season", PyVal.vInt 2021)] (by decide)⟩

end PCS
